import Mathlib

/-!
Verification of the ASCII-art rendering pipeline (src/engine.ts).

Embedding conventions:
* JavaScript numbers are modelled as exact rationals (`ℚ`); IEEE-754 rounding
  is out of scope.  The two transcendental operations the source uses
  (`Math.log`, `Math.pow` with a fractional exponent) are modelled over `ℝ`,
  which makes the definitions that touch them noncomputable.
* `Math.round x` is `⌊x + 1/2⌋` (JavaScript rounds half-way cases up).
* A scalar field (`Float32Array` of size `w*h`) is a function `ℕ → ℚ`;
  indices `≥ w*h` are irrelevant and all field sums run over
  `Finset.range (w*h)`.
* `x & 0x7fffffff` on a non-negative integer is `x % 2^31`.
* Canvas/DOM operations (drawing glyphs, reading pixels back, font
  measurement) are the pipeline boundary: functions take the decoded
  greyscale samples, or the measured glyph densities, as direct inputs.
* Fallible code (the source throws a TypeError on an empty ramp) is
  modelled with `Option`.
-/

/-- JavaScript `Math.round` on an exact rational: round half up. -/
def jround (q : ℚ) : ℤ := ⌊q + 1 / 2⌋

/-- JavaScript `Math.round` applied to a real intermediate value. -/
noncomputable def jroundR (x : ℝ) : ℤ := ⌊x + 1 / 2⌋

/-- Write `v` at index `i` of a scalar field (array store `f[i] = v`). -/
def updF (f : ℕ → ℚ) (i : ℕ) (v : ℚ) : ℕ → ℚ :=
  fun j => if j = i then v else f j

/-- Accumulate `e` at index `i` of a scalar field (array store `f[i] += e`). -/
def addF (f : ℕ → ℚ) (i : ℕ) (e : ℚ) : ℕ → ℚ :=
  fun j => if j = i then f j + e else f j

/-- A guarded accumulate: `if c { f[p] += e }`, the shape of every
error-diffusion push in the source. -/
def condAdd (c : Prop) [Decidable c] (f : ℕ → ℚ) (p : ℕ) (e : ℚ) : ℕ → ℚ :=
  if c then addF f p e else f

/-- Total ink of the first `n` cells of a field. -/
def sumF (n : ℕ) (f : ℕ → ℚ) : ℚ := ∑ j ∈ Finset.range n, f j

-- ---- Data model (engine.ts `GlobalSettings`) ----

/-- `GlobalSettings` from the source.  `gamma` is `ℝ` because it feeds
`Math.pow`/`Math.log`; every other numeric field is exact. -/
structure GlobalSettings where
  contrast : ℚ
  brightness : ℚ
  gamma : ℝ
  invert : Bool
  highPassRadius : ℚ
  blackPoint : ℚ
  whitePoint : ℚ
  blur : ℚ
  sharpen : ℚ
  posterize : ℚ
  backgroundColor : String

/-- `defaultSettings()` from the source. -/
noncomputable def defaultSettings : GlobalSettings where
  contrast := 100
  brightness := 0
  gamma := 1
  invert := false
  highPassRadius := 0
  blackPoint := 0
  whitePoint := 255
  blur := 0
  sharpen := 0
  posterize := 0
  backgroundColor := "transparent"

-- ---- Auto-optimizer (engine.ts `autoOptimizeSettings`) ----

/-- Luminance of one RGB sample:
`Math.round(0.299 R + 0.587 G + 0.114 B)`. -/
def lumOf (p : ℚ × ℚ × ℚ) : ℤ :=
  jround (299 / 1000 * p.1 + 587 / 1000 * p.2.1 + 114 / 1000 * p.2.2)

/-- The 256-bin luminance histogram `hist[lum]++` over the sampled pixels:
bin `i` holds the number of pixels whose luminance is `i`. -/
def histOf (pixels : List (ℚ × ℚ × ℚ)) : ℕ → ℕ :=
  fun i => (pixels.map lumOf).count (i : ℤ)

/-- The percentile scan of `autoOptimizeSettings`:
`cumulative += hist[i]; if (cumulative >= lo && blackPoint === 0)
blackPoint = i; if (cumulative >= hi) { whitePoint = i; break; }`,
with `i` running over the fuel and `whitePoint` defaulting to 255 when the
loop ends without a break. -/
def bwLoop (hist : ℕ → ℕ) (lo hi : ℤ) : ℕ → ℕ → ℕ → ℕ → ℕ × ℕ
  | 0, _, _, bp => (bp, 255)
  | fuel + 1, i, cum, bp =>
    let c := cum + hist i
    let bp2 := if lo ≤ (c : ℤ) ∧ bp = 0 then i else bp
    if hi ≤ (c : ℤ) then (bp2, i) else bwLoop hist lo hi fuel (i + 1) c bp2

/-- Black/white points at the 0.5% / 99.5% cumulative percentiles
(`lo = Math.round(pixels*0.005)`, `hi = Math.round(pixels*0.995)`). -/
def bwPoints (pixels : List (ℚ × ℚ × ℚ)) : ℕ × ℕ :=
  bwLoop (histOf pixels)
    (jround ((pixels.length : ℚ) * 5 / 1000))
    (jround ((pixels.length : ℚ) * 995 / 1000)) 256 0 0 0

/-- Mean luminance over the clipped range `[blackPoint, whitePoint]`;
128 when the range holds no samples. -/
def meanLum (pixels : List (ℚ × ℚ × ℚ)) : ℚ :=
  let bw := bwPoints pixels
  let s : ℚ := ∑ i ∈ Finset.Icc bw.1 bw.2, (i : ℚ) * (histOf pixels i : ℚ)
  let c : ℕ := ∑ i ∈ Finset.Icc bw.1 bw.2, histOf pixels i
  if 0 < c then s / (c : ℚ) else 128

/-- `normalizedMean = (mean - blackPoint) / Math.max(1, whitePoint - blackPoint)`. -/
def normalizedMean (pixels : List (ℚ × ℚ × ℚ)) : ℚ :=
  let bw := bwPoints pixels
  (meanLum pixels - (bw.1 : ℚ)) / max 1 ((bw.2 : ℚ) - (bw.1 : ℚ))

/-- The gamma estimate before rounding:
`normalizedMean > 0.01 ? clamp(0.3, 2.5, log(0.5)/log(normalizedMean)) : 1.0`. -/
noncomputable def autoGammaRaw (pixels : List (ℚ × ℚ × ℚ)) : ℝ :=
  let nm := normalizedMean pixels
  if 1 / 100 < nm then
    max 0.3 (min 2.5 (Real.log (1 / 2) / Real.log (nm : ℝ)))
  else 1

/-- `brightness = Math.round((128 - mean) * 0.6)` before clamping. -/
def autoBrightnessRaw (pixels : List (ℚ × ℚ × ℚ)) : ℤ :=
  jround ((128 - meanLum pixels) * 6 / 10)

/-- `contrast = range < 180 ? Math.round(100 * 220 / Math.max(1, range)) : 100`
before clamping. -/
def autoContrastRaw (pixels : List (ℚ × ℚ × ℚ)) : ℤ :=
  let bw := bwPoints pixels
  let range : ℤ := (bw.2 : ℤ) - (bw.1 : ℤ)
  if range < 180 then jround (100 * (220 / ((max 1 range : ℤ) : ℚ))) else 100

/-- `autoOptimizeSettings`: the estimated black/white points (padded by 2),
brightness, contrast and gamma (each clamped as in the source) are merged
into the current settings with the object spread `{...current, ...}`. -/
noncomputable def autoOptimizeSettings (pixels : List (ℚ × ℚ × ℚ))
    (current : GlobalSettings) : GlobalSettings :=
  let bw := bwPoints pixels
  { current with
    blackPoint := max 0 ((bw.1 : ℚ) - 2)
    whitePoint := min 255 ((bw.2 : ℚ) + 2)
    brightness := max (-150) (min 150 ((autoBrightnessRaw pixels : ℤ) : ℚ))
    contrast := max 80 (min 200 ((autoContrastRaw pixels : ℤ) : ℚ))
    gamma := ((jroundR (autoGammaRaw pixels * 100) : ℤ) : ℝ) / 100 }

-- ---- Dithering (engine.ts `ditherNone` and the error-diffusion kernels) ----

/-- `ditherNone`: direct quantization `Math.round(v/step)*step` with
`step = 255/(levels-1)`, written into a fresh zero array of size `w*h`. -/
def ditherNone (intensity : ℕ → ℚ) (w h levels : ℕ) : ℕ → ℚ :=
  let step : ℚ := 255 / ((levels : ℚ) - 1)
  fun i => if i < w * h then (jround (intensity i / step) : ℚ) * step else 0

/-- One raster-scan step of `ditherFloydSteinberg` at flat index `i`
(`x = i % w`, `y = i / w`): quantize the cell, then push the error to the
four guarded neighbours with weights 7/16, 3/16, 5/16, 1/16. -/
def fsCell (w h : ℕ) (step : ℚ) (f : ℕ → ℚ) (i : ℕ) : ℕ → ℚ :=
  let x := i % w
  let y := i / w
  let old := f i
  let nw : ℚ := (jround (old / step) : ℚ) * step
  let err := old - nw
  let f0 := updF f i nw
  let f1 := condAdd (x + 1 < w) f0 (i + 1) (err * 7 / 16)
  let f2 := condAdd (y + 1 < h ∧ 0 < x) f1 (i + w - 1) (err * 3 / 16)
  let f3 := condAdd (y + 1 < h) f2 (i + w) (err * 5 / 16)
  condAdd (y + 1 < h ∧ x + 1 < w) f3 (i + w + 1) (err * 1 / 16)

/-- `ditherFloydSteinberg`: copy the input, then run the raster scan
(`y` outer, `x` inner, i.e. flat indices `0, 1, ...` in order). -/
def ditherFloydSteinberg (intensity : ℕ → ℚ) (w h levels : ℕ) : ℕ → ℚ :=
  (List.range (w * h)).foldl (fsCell w h (255 / ((levels : ℚ) - 1))) intensity

/-- One raster-scan step of `ditherAtkinson`: the error is divided by 8 and
pushed (weight 1/8 each) to the six guarded neighbour slots; 2/8 is never
distributed. -/
def atkCell (w h : ℕ) (step : ℚ) (f : ℕ → ℚ) (i : ℕ) : ℕ → ℚ :=
  let x := i % w
  let y := i / w
  let old := f i
  let nw : ℚ := (jround (old / step) : ℚ) * step
  let err := (old - nw) / 8
  let f0 := updF f i nw
  let f1 := condAdd (x + 1 < w) f0 (i + 1) err
  let f2 := condAdd (x + 2 < w) f1 (i + 2) err
  let f3 := condAdd (y + 1 < h ∧ 0 < x) f2 (i + w - 1) err
  let f4 := condAdd (y + 1 < h) f3 (i + w) err
  let f5 := condAdd (y + 1 < h ∧ x + 1 < w) f4 (i + w + 1) err
  condAdd (y + 2 < h) f5 (i + 2 * w) err

/-- `ditherAtkinson`: raster scan of `atkCell`. -/
def ditherAtkinson (intensity : ℕ → ℚ) (w h levels : ℕ) : ℕ → ℚ :=
  (List.range (w * h)).foldl (atkCell w h (255 / ((levels : ℚ) - 1))) intensity

/-- One raster-scan step of `ditherStucki`: 12 guarded pushes normalized
by 42. -/
def stuckiCell (w h : ℕ) (step : ℚ) (f : ℕ → ℚ) (i : ℕ) : ℕ → ℚ :=
  let x := i % w
  let y := i / w
  let old := f i
  let nw : ℚ := (jround (old / step) : ℚ) * step
  let err := old - nw
  let f0 := updF f i nw
  let f1 := condAdd (x + 1 < w) f0 (i + 1) (err * 8 / 42)
  let f2 := condAdd (x + 2 < w) f1 (i + 2) (err * 4 / 42)
  let f3 := condAdd (y + 1 < h ∧ 1 < x) f2 (i + w - 2) (err * 2 / 42)
  let f4 := condAdd (y + 1 < h ∧ 0 < x) f3 (i + w - 1) (err * 4 / 42)
  let f5 := condAdd (y + 1 < h) f4 (i + w) (err * 8 / 42)
  let f6 := condAdd (y + 1 < h ∧ x + 1 < w) f5 (i + w + 1) (err * 4 / 42)
  let f7 := condAdd (y + 1 < h ∧ x + 2 < w) f6 (i + w + 2) (err * 2 / 42)
  let f8 := condAdd (y + 2 < h ∧ 1 < x) f7 (i + 2 * w - 2) (err * 1 / 42)
  let f9 := condAdd (y + 2 < h ∧ 0 < x) f8 (i + 2 * w - 1) (err * 2 / 42)
  let f10 := condAdd (y + 2 < h) f9 (i + 2 * w) (err * 4 / 42)
  let f11 := condAdd (y + 2 < h ∧ x + 1 < w) f10 (i + 2 * w + 1) (err * 2 / 42)
  condAdd (y + 2 < h ∧ x + 2 < w) f11 (i + 2 * w + 2) (err * 1 / 42)

/-- `ditherStucki`: raster scan of `stuckiCell`. -/
def ditherStucki (intensity : ℕ → ℚ) (w h levels : ℕ) : ℕ → ℚ :=
  (List.range (w * h)).foldl (stuckiCell w h (255 / ((levels : ℚ) - 1))) intensity

-- ---- Blur / sharpen (engine.ts `boxBlur`, `gaussianBlur`, `unsharpMask`) ----

/-- Initial sliding-window state of one `boxBlur` line pass:
`sum` and `count` over the first `min(r+1, n)` samples. -/
def windowInit (get : ℕ → ℚ) (n r : ℕ) : ℚ × ℕ :=
  (∑ j ∈ Finset.range (min (r + 1) n), get j, min (r + 1) n)

/-- One step of the `boxBlur` line scan: emit `sum/count`, then slide the
window (`add = x+r+1` enters if in range, `rem = x-r` leaves if `x ≥ r`). -/
def lineStep (get : ℕ → ℚ) (n r : ℕ) (st : ℚ × ℕ × List ℚ) (x : ℕ) :
    ℚ × ℕ × List ℚ :=
  let out := st.1 / (st.2.1 : ℚ)
  let s1 : ℚ × ℕ :=
    if x + r + 1 < n then (st.1 + get (x + r + 1), st.2.1 + 1) else (st.1, st.2.1)
  let s2 : ℚ × ℕ := if r ≤ x then (s1.1 - get (x - r), s1.2 - 1) else s1
  (s2.1, s2.2, st.2.2 ++ [out])

/-- One full line (row or column) of the separable box blur. -/
def linePass (get : ℕ → ℚ) (n r : ℕ) : List ℚ :=
  let init := windowInit get n r
  ((List.range n).foldl (lineStep get n r) (init.1, init.2, [])).2.2

/-- `boxBlur`: identity when `radius < 1`, else a horizontal line pass per
row followed by a vertical line pass per column, with `r = Math.round(radius)`. -/
def boxBlur (data : ℕ → ℚ) (w h : ℕ) (radius : ℚ) : ℕ → ℚ :=
  if radius < 1 then data
  else
    let r := (jround radius).toNat
    let temp : ℕ → ℚ :=
      fun j => (linePass (fun x => data (j / w * w + x)) w r).getD (j % w) 0
    fun j => (linePass (fun y => temp (y * w + j % w)) h r).getD (j / w) 0

/-- `gaussianBlur`: three box-blur passes with `r = max(1, Math.round(radius/1.73))`. -/
def gaussianBlur (data : ℕ → ℚ) (w h : ℕ) (radius : ℚ) : ℕ → ℚ :=
  let r : ℕ := max 1 (jround (radius / (173 / 100))).toNat
  boxBlur (boxBlur (boxBlur data w h (r : ℚ)) w h (r : ℚ)) w h (r : ℚ)

/-- `unsharpMask`: `clamp(g + (g - gaussianBlur(g, 2)) * amount/100)`,
identity when `amount ≤ 0`. -/
def unsharpMask (data : ℕ → ℚ) (w h : ℕ) (amount : ℚ) : ℕ → ℚ :=
  if amount ≤ 0 then data
  else
    let blurred := gaussianBlur data w h 2
    let a := amount / 100
    fun i => max 0 (min 255 (data i + (data i - blurred i) * a))

-- ---- Global tone adjuster (engine.ts `createAdjustedCanvas`) ----

/-- The per-sample adjustment chain of `createAdjustedCanvas` (levels remap,
brightness, contrast, gamma, posterize, invert, clamp), in the source's
order.  Gamma uses `Math.pow`, hence the move to `ℝ`. -/
noncomputable def adjustSample (s : GlobalSettings) (v : ℚ) : ℝ :=
  let cf := s.contrast / 100
  let rng := max 1 (s.whitePoint - s.blackPoint)
  let v1 := (v - s.blackPoint) / rng * 255
  let v2 := v1 + s.brightness
  let v3 := (v2 - 128) * cf + 128
  let v4 : ℚ := max 0 v3
  let v5 : ℝ := 255 * ((v4 : ℝ) / 255) ^ s.gamma
  let v6 : ℝ :=
    if 2 ≤ s.posterize then
      ((jroundR (v5 / ((255 / (s.posterize - 1) : ℚ) : ℝ)) : ℤ) : ℝ) *
        ((255 / (s.posterize - 1) : ℚ) : ℝ)
    else v5
  let v7 := if s.invert then 255 - v6 else v6
  max 0 (min 255 v7)

/-- `createAdjustedCanvas` on the greyscale field: optional blur, optional
high-pass background removal, optional sharpen, then the per-sample chain.
(The final `greyToCanvas` writeback is the canvas boundary and not part of
the adjustment.) -/
noncomputable def createAdjustedField (s : GlobalSettings) (w h : ℕ)
    (grey : ℕ → ℚ) : ℕ → ℝ :=
  let g1 := if 0 < s.blur then gaussianBlur grey w h s.blur else grey
  let g2 :=
    if 0 < s.highPassRadius then
      let blurred := gaussianBlur g1 w h s.highPassRadius
      fun i => 128 + (g1 i - blurred i) * 2
    else g1
  let g3 := if 0 < s.sharpen then unsharpMask g2 w h s.sharpen else g2
  fun i => adjustSample s (g3 i)

-- ---- Per-layer intensity post-step and the renderer's cell test ----

/-- The shared post-step at the end of `computeIntensity`: multiply by
`contrast/100`, optionally invert, zero below `threshold`, clamp to [0,255]. -/
def postStep (contrast : ℚ) (invert : Bool) (threshold : ℚ) (v : ℚ) : ℚ :=
  let cf := contrast / 100
  let v1 := v * cf
  let v2 := if invert then 255 - v1 else v1
  let v3 := if v2 < threshold then 0 else v2
  max 0 (min 255 v3)

/-- The per-cell glyph decision of `renderAsciiLayer`: clamp the intensity,
skip the cell when it is below 3, look up the LUT at the rounded value, and
skip when the selected glyph is a space. -/
def cellGlyph (lut : ℕ → Char) (x : ℚ) : Option Char :=
  let val := max 0 (min 255 x)
  if val < 3 then none
  else
    let ch := lut (min 255 (max 0 (jround val))).toNat
    if ch = ' ' then none else some ch

-- ---- Stipple (engine.ts `stippleIntensity`) ----

/-- One step of the stipple generator:
`seed = (seed * 1103515245 + 12345) & 0x7fffffff`. -/
def lcgNext (s : ℕ) : ℕ := (s * 1103515245 + 12345) % 2147483648

/-- The seed after `n` advances, starting from the fixed seed 42. -/
def lcgSeed : ℕ → ℕ
  | 0 => 42
  | n + 1 => lcgNext (lcgSeed n)

/-- One cell of the stipple scan: advance the seed, read the darkness,
place `darkness * 1.5` when `rand() < (darkness/255)²`, else 0. -/
def stippleStep (grey : ℕ → ℚ) (darkOnLight : Bool) (st : ℕ × (ℕ → ℚ))
    (i : ℕ) : ℕ × (ℕ → ℚ) :=
  let s := lcgNext st.1
  let d := if darkOnLight then 255 - grey i else grey i
  let v : ℚ :=
    if (s : ℚ) / 2147483647 < d / 255 * (d / 255) then d * (3 / 2) else 0
  (s, updF st.2 i v)

/-- `stippleIntensity`: raster scan threading the seed (initially 42)
through a fresh zero field. -/
def stippleIntensity (grey : ℕ → ℚ) (w h : ℕ) (darkOnLight : Bool) : ℕ → ℚ :=
  ((List.range (w * h)).foldl (stippleStep grey darkOnLight)
    (42, fun _ => 0)).2

-- ---- Character LUT (engine.ts `buildCharLUT`) ----

/-- Order on measured (glyph, density) pairs: ascending density, the
comparator `(a, b) => densities.get(a) - densities.get(b)` of the source. -/
def densLE (p q : Char × ℚ) : Prop := p.2 ≤ q.2

instance : DecidableRel densLE := fun p q => inferInstanceAs (Decidable (p.2 ≤ q.2))

instance : IsTotal (Char × ℚ) densLE := ⟨fun p q => le_total p.2 q.2⟩

instance : IsTrans (Char × ℚ) densLE := ⟨fun _ _ _ h1 h2 => le_trans h1 h2⟩

/-- The linear nearest-match scan of `buildCharLUT`: start from the first
pair, replace the running best only on a strictly smaller distance to the
target density. -/
def bestScan (t : ℚ) (b : Char × ℚ) (l : List (Char × ℚ)) : Char × ℚ :=
  l.foldl (fun cur p => if |p.2 - t| < |cur.2 - t| then p else cur) b

/-- `buildCharLUT`, taking the measured (unique glyph, density) pairs as
input (glyph measurement happens on a canvas and is an external input).
The pairs are sorted by ascending density; entry `i` of the 256-entry table
is the nearest match to the target density `minD + (i/255) * range`, with
`range = (maxD - minD) || 1`.  On an empty ramp the source evaluates
`charDensityPairs[0].density` on an empty array and throws: `none`. -/
def buildCharLUT (pairs : List (Char × ℚ)) : Option (ℕ → Char × ℚ) :=
  match List.insertionSort densLE pairs with
  | [] => none
  | p :: rest =>
    let minD := p.2
    let maxD := (List.getLast (p :: rest) (List.cons_ne_nil p rest)).2
    let range := if maxD - minD = 0 then 1 else maxD - minD
    some (fun i => bestScan (minD + (i : ℚ) / 255 * range) p rest)

-- ---- Concrete instances used by counterexamples ----

/-- A 6×6 input field for `ditherAtkinson` (levels = 256, step = 1): the
value at `(x, y)` is `1/2` plus `1/16` for each error push the raster scan
delivers to that cell, so every cell quantizes with error exactly `-1/2`. -/
def cexAtk : ℕ → ℚ := fun j =>
  let x := j % 6
  let y := j / 6
  1 / 2 +
    ((if 1 ≤ x then (1 : ℚ) else 0) + (if 2 ≤ x then 1 else 0) +
      (if 1 ≤ y ∧ x ≤ 4 then 1 else 0) + (if 1 ≤ y then 1 else 0) +
      (if 1 ≤ x ∧ 1 ≤ y then 1 else 0) + (if 2 ≤ y then 1 else 0)) / 16

/-- The number of Atkinson kernel slots whose boundary guard fails at flat
index `i` of a `w × h` field (each slot carries weight 1/8). -/
def atkFailCount (w h i : ℕ) : ℕ :=
  let x := i % w
  let y := i / w
  (if x + 1 < w then 0 else 1) + (if x + 2 < w then 0 else 1) +
    (if y + 1 < h ∧ 0 < x then 0 else 1) + (if y + 1 < h then 0 else 1) +
    (if y + 1 < h ∧ x + 1 < w then 0 else 1) + (if y + 2 < h then 0 else 1)

/-- The total error weight the Atkinson scan can possibly lose to boundary
clamping on a `w × h` field: the sum over all cells of the weight (1/8 per
slot) of the kernel slots whose guards fail there.  Any ink deficit beyond
`(step/2) * atkFailWeight` cannot be attributed to the field edges. -/
def atkFailWeight (w h : ℕ) : ℚ :=
  ∑ i ∈ Finset.range (w * h), (atkFailCount w h i : ℚ) / 8

-- ======================================================================
-- Helper lemmas
-- ======================================================================

theorem jround_le (q : ℚ) : (jround q : ℚ) ≤ q + 1 / 2 :=
  Int.floor_le _

theorem lt_jround (q : ℚ) : q - 1 / 2 < (jround q : ℚ) := by
  have h := Int.lt_floor_add_one (q + 1 / 2)
  unfold jround
  push_cast at h ⊢
  linarith

/-- The quantization error `v - round(v/step)*step` is at most half a step. -/
theorem abs_quant_err (stp v : ℚ) (h : 0 < stp) :
    |v - (jround (v / stp) : ℚ) * stp| ≤ stp / 2 := by
  have h1 := jround_le (v / stp)
  have h2 := lt_jround (v / stp)
  have hv : v / stp * stp = v := div_mul_cancel₀ v (ne_of_gt h)
  rw [abs_le]
  constructor
  · nlinarith [mul_le_mul_of_nonneg_right h1 (le_of_lt h)]
  · nlinarith [mul_le_mul_of_nonneg_right (le_of_lt h2) (le_of_lt h)]

/-- Quantizing an exact multiple of the step returns it unchanged. -/
theorem jround_int_mul (k : ℤ) (stp : ℚ) :
    (jround ((k : ℚ) * stp / stp) : ℚ) * stp = (k : ℚ) * stp := by
  rcases eq_or_ne stp 0 with h | h
  · subst h
    simp
  · rw [mul_div_cancel_right₀ _ h]
    have : jround (k : ℚ) = k := by
      unfold jround
      rw [add_comm, Int.floor_add_int]
      norm_num
    rw [this]

theorem updF_self (f : ℕ → ℚ) (i : ℕ) (v : ℚ) : updF f i v i = v := by
  simp [updF]

theorem updF_ne (f : ℕ → ℚ) (i : ℕ) (v : ℚ) (j : ℕ) (h : j ≠ i) :
    updF f i v j = f j := by
  simp [updF, h]

theorem condAdd_ne (c : Prop) [Decidable c] (f : ℕ → ℚ) (p : ℕ) (e : ℚ)
    (j : ℕ) (h : c → j ≠ p) : condAdd c f p e j = f j := by
  by_cases hc : c
  · simp [condAdd, hc, addF, h hc]
  · simp [condAdd, hc]

theorem sumF_addF (n : ℕ) (f : ℕ → ℚ) (p : ℕ) (e : ℚ) (hp : p < n) :
    sumF n (addF f p e) = sumF n f + e := by
  unfold sumF addF
  have h : ∀ j, (if j = p then f j + e else f j) = f j + (if j = p then e else 0) := by
    intro j
    split <;> simp
  simp_rw [h]
  rw [Finset.sum_add_distrib, Finset.sum_ite_eq' (Finset.range n) p (fun _ => e)]
  simp [Finset.mem_range.mpr hp]

theorem sumF_updF (n : ℕ) (f : ℕ → ℚ) (i : ℕ) (v : ℚ) (hi : i < n) :
    sumF n (updF f i v) = sumF n f + (v - f i) := by
  unfold sumF updF
  have h : ∀ j, (if j = i then v else f j) = f j + (if j = i then v - f j else 0) := by
    intro j
    split <;> simp_all
  simp_rw [h]
  rw [Finset.sum_add_distrib, Finset.sum_ite_eq' (Finset.range n) i (fun j => v - f j)]
  simp [Finset.mem_range.mpr hi]

theorem sumF_condAdd (n : ℕ) (c : Prop) [Decidable c] (f : ℕ → ℚ) (p : ℕ)
    (e : ℚ) (hp : c → p < n) :
    sumF n (condAdd c f p e) = sumF n f + (if c then e else 0) := by
  by_cases hc : c
  · simp only [condAdd, if_pos hc]
    rw [sumF_addF n f p e (hp hc)]
  · simp [condAdd, hc]

/-- Generic invariant lemma for a raster scan `foldl` over `List.range N`. -/
theorem foldlRangeInv {α : Type} (P : ℕ → α → Prop) (step : α → ℕ → α) :
    ∀ (N : ℕ) (a : α), P 0 a → (∀ i b, i < N → P i b → P (i + 1) (step b i)) →
      P N ((List.range N).foldl step a) := by
  intro N
  induction N with
  | zero => intro a h0 _; simpa using h0
  | succ n ih =>
    intro a h0 hstep
    rw [List.range_succ, List.foldl_append, List.foldl_cons, List.foldl_nil]
    exact hstep n _ (Nat.lt_succ_self n)
      (ih a h0 (fun i b hi hb => hstep i b (hi.trans (Nat.lt_succ_self n)) hb))

theorem grid_lt (w h y x : ℕ) (hy : y < h) (hx : x < w) : y * w + x < w * h := by
  calc y * w + x < y * w + w := by omega
    _ = (y + 1) * w := by ring
    _ ≤ h * w := Nat.mul_le_mul_right w hy
    _ = w * h := Nat.mul_comm h w

theorem idx_div_lt (w h i : ℕ) (hi : i < w * h) : i / w < h := by
  rcases Nat.eq_zero_or_pos w with hw | hw
  · subst hw; omega
  · exact Nat.div_lt_of_lt_mul (by omega)

theorem idx_plus_lt (w h i dy dx : ℕ) (_hi : i < w * h)
    (hx : i % w + dx < w) (hy : i / w + dy < h) : i + (dy * w + dx) < w * h := by
  have hdm := Nat.div_add_mod i w
  have h2 : i + (dy * w + dx) = (i / w + dy) * w + (i % w + dx) := by
    calc i + (dy * w + dx) = (w * (i / w) + i % w) + (dy * w + dx) := by rw [hdm]
      _ = (i / w + dy) * w + (i % w + dx) := by ring
  rw [h2]
  exact grid_lt w h (i / w + dy) (i % w + dx) hy hx

theorem idx_minus_lt (w h i dy dx : ℕ) (hi : i < w * h)
    (hy : i / w + dy < h) : i + dy * w - dx < w * h := by
  have hw : 0 < w := by
    rcases Nat.eq_zero_or_pos w with hw | hw
    · subst hw; omega
    · exact hw
  have h1 : i + (dy * w + 0) < w * h :=
    idx_plus_lt w h i dy 0 hi (by have := Nat.mod_lt i hw; omega) hy
  omega

theorem card_col_le (w h c : ℕ) :
    ((Finset.range (w * h)).filter (fun i => i % w = c)).card ≤ h := by
  rcases Nat.eq_zero_or_pos w with hw | hw
  · subst hw; simp
  · have hc : ((Finset.range (w * h)).filter (fun i => i % w = c)).card ≤
        (Finset.range h).card := by
      apply Finset.card_le_card_of_injOn (fun i => i / w)
      · intro i hi
        simp only [Finset.mem_filter, Finset.mem_range] at hi
        exact Finset.mem_range.mpr (idx_div_lt w h i hi.1)
      · intro i hi j hj hij
        simp only [Finset.coe_filter, Set.mem_setOf_eq, Finset.mem_range] at hi hj
        have h1 := Nat.div_add_mod i w
        have h2 := Nat.div_add_mod j w
        simp only at hij
        rw [hij] at h1
        omega
    simpa using hc

theorem card_row_le (w h r : ℕ) :
    ((Finset.range (w * h)).filter (fun i => i / w = r)).card ≤ w := by
  rcases Nat.eq_zero_or_pos w with hw | hw
  · subst hw; simp
  · have hc : ((Finset.range (w * h)).filter (fun i => i / w = r)).card ≤
        (Finset.range w).card := by
      apply Finset.card_le_card_of_injOn (fun i => i % w)
      · intro i _hi
        exact Finset.mem_range.mpr (Nat.mod_lt i hw)
      · intro i hi j hj hij
        simp only [Finset.coe_filter, Set.mem_setOf_eq, Finset.mem_range] at hi hj
        have h1 := Nat.div_add_mod i w
        have h2 := Nat.div_add_mod j w
        simp only at hij
        rw [hi.2] at h1
        rw [hj.2] at h2
        rw [hij] at h1
        omega
    simpa using hc

theorem ite_mul_shape (c : Prop) [Decidable c] (e a b : ℚ) :
    (if c then e * a / b else 0) = e * (if c then a / b else 0) := by
  split <;> ring

theorem ite0_bounds (c : Prop) [Decidable c] (k : ℚ) (hk : 0 ≤ k) :
    0 ≤ (if c then k else 0) ∧ (if c then k else 0) ≤ k := by
  constructor <;> split <;> simp [hk]

theorem pos_w_of_lt (w h i : ℕ) (hi : i < w * h) : 0 < w := by
  rcases Nat.eq_zero_or_pos w with h0 | h0
  · subst h0
    simp at hi
  · exact h0

/-- A Floyd-Steinberg cell step changes the field total by the quantization
error times the dropped kernel weight: zero at interior cells, at most
half a step anywhere. -/
theorem fsCell_bound (w h : ℕ) (stp : ℚ) (hstp : 0 < stp) (f : ℕ → ℚ) (i : ℕ)
    (hi : i < w * h) :
    |sumF (w * h) (fsCell w h stp f i) - sumF (w * h) f| ≤
      (if 0 < i % w ∧ i % w + 1 < w ∧ i / w + 1 < h then 0 else stp / 2) := by
  have hw : 0 < w := pos_w_of_lt w h i hi
  have hyh : i / w < h := idx_div_lt w h i hi
  have hxw : i % w < w := Nat.mod_lt i hw
  have t1 : i % w + 1 < w → i + 1 < w * h := fun hx => by
    have := idx_plus_lt w h i 0 1 hi hx (by omega)
    omega
  have t2 : (i / w + 1 < h ∧ 0 < i % w) → i + w - 1 < w * h := fun hc => by
    have := idx_minus_lt w h i 1 1 hi (by omega)
    omega
  have t3 : i / w + 1 < h → i + w < w * h := fun hy => by
    have := idx_plus_lt w h i 1 0 hi (by omega) (by omega)
    omega
  have t4 : (i / w + 1 < h ∧ i % w + 1 < w) → i + w + 1 < w * h := fun hc => by
    have := idx_plus_lt w h i 1 1 hi (by omega) (by omega)
    omega
  simp only [fsCell]
  rw [sumF_condAdd _ _ _ _ _ t4, sumF_condAdd _ _ _ _ _ t3,
    sumF_condAdd _ _ _ _ _ t2, sumF_condAdd _ _ _ _ _ t1, sumF_updF _ _ _ _ hi]
  rw [ite_mul_shape, ite_mul_shape, ite_mul_shape, ite_mul_shape]
  have key : sumF (w * h) f + ((jround (f i / stp) : ℚ) * stp - f i) +
      (f i - (jround (f i / stp) : ℚ) * stp) * (if i % w + 1 < w then (7 : ℚ) / 16 else 0) +
      (f i - (jround (f i / stp) : ℚ) * stp) * (if i / w + 1 < h ∧ 0 < i % w then (3 : ℚ) / 16 else 0) +
      (f i - (jround (f i / stp) : ℚ) * stp) * (if i / w + 1 < h then (5 : ℚ) / 16 else 0) +
      (f i - (jround (f i / stp) : ℚ) * stp) * (if i / w + 1 < h ∧ i % w + 1 < w then (1 : ℚ) / 16 else 0) -
      sumF (w * h) f =
      (f i - (jround (f i / stp) : ℚ) * stp) *
        (((if i % w + 1 < w then (7 : ℚ) / 16 else 0) +
          (if i / w + 1 < h ∧ 0 < i % w then (3 : ℚ) / 16 else 0) +
          (if i / w + 1 < h then (5 : ℚ) / 16 else 0) +
          (if i / w + 1 < h ∧ i % w + 1 < w then (1 : ℚ) / 16 else 0)) - 1) := by
    ring
  rw [key]
  by_cases hint : 0 < i % w ∧ i % w + 1 < w ∧ i / w + 1 < h
  · rw [if_pos hint, if_pos hint.2.1, if_pos ⟨hint.2.2, hint.1⟩, if_pos hint.2.2,
      if_pos ⟨hint.2.2, hint.2.1⟩]
    norm_num
  · rw [if_neg hint]
    have hE : |f i - (jround (f i / stp) : ℚ) * stp| ≤ stp / 2 :=
      abs_quant_err stp (f i) hstp
    have b1 := ite0_bounds (i % w + 1 < w) ((7 : ℚ) / 16) (by norm_num)
    have b2 := ite0_bounds (i / w + 1 < h ∧ 0 < i % w) ((3 : ℚ) / 16) (by norm_num)
    have b3 := ite0_bounds (i / w + 1 < h) ((5 : ℚ) / 16) (by norm_num)
    have b4 := ite0_bounds (i / w + 1 < h ∧ i % w + 1 < w) ((1 : ℚ) / 16) (by norm_num)
    rw [abs_mul]
    have hWabs : |(((if i % w + 1 < w then (7 : ℚ) / 16 else 0) +
        (if i / w + 1 < h ∧ 0 < i % w then (3 : ℚ) / 16 else 0) +
        (if i / w + 1 < h then (5 : ℚ) / 16 else 0) +
        (if i / w + 1 < h ∧ i % w + 1 < w then (1 : ℚ) / 16 else 0)) - 1)| ≤ 1 := by
      rw [abs_le]
      constructor <;> linarith [b1.1, b1.2, b2.1, b2.2, b3.1, b3.2, b4.1, b4.2]
    calc |f i - (jround (f i / stp) : ℚ) * stp| * _ ≤ (stp / 2) * 1 :=
          mul_le_mul hE hWabs (abs_nonneg _) (by linarith)
      _ = stp / 2 := by ring

theorem delta_full12 (S F Q : ℚ) :
    |S + (Q - F) + (F - Q) * (8 / 42) + (F - Q) * (4 / 42) + (F - Q) * (2 / 42) +
      (F - Q) * (4 / 42) + (F - Q) * (8 / 42) + (F - Q) * (4 / 42) +
      (F - Q) * (2 / 42) + (F - Q) * (1 / 42) + (F - Q) * (2 / 42) +
      (F - Q) * (4 / 42) + (F - Q) * (2 / 42) + (F - Q) * (1 / 42) - S| ≤ 0 := by
  have key : S + (Q - F) + (F - Q) * (8 / 42) + (F - Q) * (4 / 42) +
      (F - Q) * (2 / 42) + (F - Q) * (4 / 42) + (F - Q) * (8 / 42) +
      (F - Q) * (4 / 42) + (F - Q) * (2 / 42) + (F - Q) * (1 / 42) +
      (F - Q) * (2 / 42) + (F - Q) * (4 / 42) + (F - Q) * (2 / 42) +
      (F - Q) * (1 / 42) - S = 0 := by ring
  rw [key]
  simp

theorem delta_bound12 (S F Q stp a1 a2 a3 a4 a5 a6 a7 a8 a9 a10 a11 a12 : ℚ)
    (hE : |F - Q| ≤ stp / 2) (hstp : 0 ≤ stp)
    (h0 : 0 ≤ a1 + a2 + a3 + a4 + a5 + a6 + a7 + a8 + a9 + a10 + a11 + a12)
    (h1 : a1 + a2 + a3 + a4 + a5 + a6 + a7 + a8 + a9 + a10 + a11 + a12 ≤ 1) :
    |S + (Q - F) + (F - Q) * a1 + (F - Q) * a2 + (F - Q) * a3 + (F - Q) * a4 +
      (F - Q) * a5 + (F - Q) * a6 + (F - Q) * a7 + (F - Q) * a8 + (F - Q) * a9 +
      (F - Q) * a10 + (F - Q) * a11 + (F - Q) * a12 - S| ≤ stp / 2 := by
  have key : S + (Q - F) + (F - Q) * a1 + (F - Q) * a2 + (F - Q) * a3 +
      (F - Q) * a4 + (F - Q) * a5 + (F - Q) * a6 + (F - Q) * a7 + (F - Q) * a8 +
      (F - Q) * a9 + (F - Q) * a10 + (F - Q) * a11 + (F - Q) * a12 - S =
      (F - Q) * ((a1 + a2 + a3 + a4 + a5 + a6 + a7 + a8 + a9 + a10 + a11 + a12) - 1) := by
    ring
  rw [key, abs_mul]
  have habs : |(a1 + a2 + a3 + a4 + a5 + a6 + a7 + a8 + a9 + a10 + a11 + a12) - 1| ≤ 1 := by
    rw [abs_le]
    constructor <;> linarith
  calc |F - Q| * _ ≤ (stp / 2) * 1 := mul_le_mul hE habs (abs_nonneg _) (by linarith)
    _ = stp / 2 := by ring

/-- A Stucki cell step changes the field total by the quantization error
times the dropped kernel weight: zero at interior cells, at most half a
step anywhere. -/
theorem stuckiCell_bound (w h : ℕ) (stp : ℚ) (hstp : 0 < stp) (f : ℕ → ℚ)
    (i : ℕ) (hi : i < w * h) :
    |sumF (w * h) (stuckiCell w h stp f i) - sumF (w * h) f| ≤
      (if 1 < i % w ∧ i % w + 2 < w ∧ i / w + 2 < h then 0 else stp / 2) := by
  have hw : 0 < w := pos_w_of_lt w h i hi
  have hyh : i / w < h := idx_div_lt w h i hi
  have hxw : i % w < w := Nat.mod_lt i hw
  have t1 : i % w + 1 < w → i + 1 < w * h := fun hx => by
    have := idx_plus_lt w h i 0 1 hi hx (by omega)
    omega
  have t2 : i % w + 2 < w → i + 2 < w * h := fun hx => by
    have := idx_plus_lt w h i 0 2 hi hx (by omega)
    omega
  have t3 : (i / w + 1 < h ∧ 1 < i % w) → i + w - 2 < w * h := fun hc => by
    have := idx_minus_lt w h i 1 2 hi (by omega)
    omega
  have t4 : (i / w + 1 < h ∧ 0 < i % w) → i + w - 1 < w * h := fun hc => by
    have := idx_minus_lt w h i 1 1 hi (by omega)
    omega
  have t5 : i / w + 1 < h → i + w < w * h := fun hy => by
    have := idx_plus_lt w h i 1 0 hi (by omega) (by omega)
    omega
  have t6 : (i / w + 1 < h ∧ i % w + 1 < w) → i + w + 1 < w * h := fun hc => by
    have := idx_plus_lt w h i 1 1 hi (by omega) (by omega)
    omega
  have t7 : (i / w + 1 < h ∧ i % w + 2 < w) → i + w + 2 < w * h := fun hc => by
    have := idx_plus_lt w h i 1 2 hi (by omega) (by omega)
    omega
  have t8 : (i / w + 2 < h ∧ 1 < i % w) → i + 2 * w - 2 < w * h := fun hc => by
    have := idx_minus_lt w h i 2 2 hi (by omega)
    omega
  have t9 : (i / w + 2 < h ∧ 0 < i % w) → i + 2 * w - 1 < w * h := fun hc => by
    have := idx_minus_lt w h i 2 1 hi (by omega)
    omega
  have t10 : i / w + 2 < h → i + 2 * w < w * h := fun hy => by
    have := idx_plus_lt w h i 2 0 hi (by omega) (by omega)
    omega
  have t11 : (i / w + 2 < h ∧ i % w + 1 < w) → i + 2 * w + 1 < w * h := fun hc => by
    have := idx_plus_lt w h i 2 1 hi (by omega) (by omega)
    omega
  have t12 : (i / w + 2 < h ∧ i % w + 2 < w) → i + 2 * w + 2 < w * h := fun hc => by
    have := idx_plus_lt w h i 2 2 hi (by omega) (by omega)
    omega
  simp only [stuckiCell]
  rw [sumF_condAdd _ _ _ _ _ t12, sumF_condAdd _ _ _ _ _ t11,
    sumF_condAdd _ _ _ _ _ t10, sumF_condAdd _ _ _ _ _ t9,
    sumF_condAdd _ _ _ _ _ t8, sumF_condAdd _ _ _ _ _ t7,
    sumF_condAdd _ _ _ _ _ t6, sumF_condAdd _ _ _ _ _ t5,
    sumF_condAdd _ _ _ _ _ t4, sumF_condAdd _ _ _ _ _ t3,
    sumF_condAdd _ _ _ _ _ t2, sumF_condAdd _ _ _ _ _ t1, sumF_updF _ _ _ _ hi]
  rw [ite_mul_shape, ite_mul_shape, ite_mul_shape, ite_mul_shape, ite_mul_shape,
    ite_mul_shape, ite_mul_shape, ite_mul_shape, ite_mul_shape, ite_mul_shape,
    ite_mul_shape, ite_mul_shape]
  by_cases hint : 1 < i % w ∧ i % w + 2 < w ∧ i / w + 2 < h
  · rw [if_pos hint]
    have g1 : i % w + 1 < w := by omega
    have g2 : i % w + 2 < w := hint.2.1
    have g5 : i / w + 1 < h := by omega
    have g10 : i / w + 2 < h := hint.2.2
    rw [if_pos g1, if_pos g2, if_pos (And.intro g5 hint.1),
      if_pos (And.intro g5 (by omega : 0 < i % w)), if_pos g5,
      if_pos (And.intro g5 g1), if_pos (And.intro g5 g2),
      if_pos (And.intro g10 hint.1),
      if_pos (And.intro g10 (by omega : 0 < i % w)), if_pos g10,
      if_pos (And.intro g10 g1), if_pos (And.intro g10 g2)]
    exact delta_full12 _ _ _
  · rw [if_neg hint]
    have hE : |f i - (jround (f i / stp) : ℚ) * stp| ≤ stp / 2 :=
      abs_quant_err stp (f i) hstp
    have b1 := ite0_bounds (i % w + 1 < w) ((8 : ℚ) / 42) (by norm_num)
    have b2 := ite0_bounds (i % w + 2 < w) ((4 : ℚ) / 42) (by norm_num)
    have b3 := ite0_bounds (i / w + 1 < h ∧ 1 < i % w) ((2 : ℚ) / 42) (by norm_num)
    have b4 := ite0_bounds (i / w + 1 < h ∧ 0 < i % w) ((4 : ℚ) / 42) (by norm_num)
    have b5 := ite0_bounds (i / w + 1 < h) ((8 : ℚ) / 42) (by norm_num)
    have b6 := ite0_bounds (i / w + 1 < h ∧ i % w + 1 < w) ((4 : ℚ) / 42) (by norm_num)
    have b7 := ite0_bounds (i / w + 1 < h ∧ i % w + 2 < w) ((2 : ℚ) / 42) (by norm_num)
    have b8 := ite0_bounds (i / w + 2 < h ∧ 1 < i % w) ((1 : ℚ) / 42) (by norm_num)
    have b9 := ite0_bounds (i / w + 2 < h ∧ 0 < i % w) ((2 : ℚ) / 42) (by norm_num)
    have b10 := ite0_bounds (i / w + 2 < h) ((4 : ℚ) / 42) (by norm_num)
    have b11 := ite0_bounds (i / w + 2 < h ∧ i % w + 1 < w) ((2 : ℚ) / 42) (by norm_num)
    have b12 := ite0_bounds (i / w + 2 < h ∧ i % w + 2 < w) ((1 : ℚ) / 42) (by norm_num)
    apply delta_bound12 _ _ _ _ _ _ _ _ _ _ _ _ _ _ _ _ hE (by linarith)
    · linarith [b1.1, b2.1, b3.1, b4.1, b5.1, b6.1, b7.1, b8.1, b9.1, b10.1,
        b11.1, b12.1]
    · linarith [b1.2, b2.2, b3.2, b4.2, b5.2, b6.2, b7.2, b8.2, b9.2, b10.2,
        b11.2, b12.2]

/-- Folding per-cell steps whose mass change is zero at interior cells and
at most `c` elsewhere keeps the field total within (number of non-interior
cells) times `c` of the initial total. -/
theorem foldl_sum_bound (N : ℕ) (cell : (ℕ → ℚ) → ℕ → ℕ → ℚ) (B : ℕ → Prop)
    [DecidablePred B] (c : ℚ)
    (hcell : ∀ g i, i < N → |sumF N (cell g i) - sumF N g| ≤ (if B i then 0 else c))
    (f : ℕ → ℚ) :
    |sumF N ((List.range N).foldl cell f) - sumF N f| ≤
      (((Finset.range N).filter (fun i => ¬ B i)).card : ℚ) * c := by
  refine foldlRangeInv
    (fun k g => |sumF N g - sumF N f| ≤
      (((Finset.range k).filter (fun i => ¬ B i)).card : ℚ) * c) cell N f ?_ ?_
  · simp
  · intro i g hiN hg
    have hstep := hcell g i hiN
    have htri : |sumF N (cell g i) - sumF N f| ≤
        |sumF N (cell g i) - sumF N g| + |sumF N g - sumF N f| :=
      abs_sub_le _ _ _
    have hcard : ((Finset.range (i + 1)).filter (fun j => ¬ B j)).card =
        ((Finset.range i).filter (fun j => ¬ B j)).card + (if B i then 0 else 1) := by
      rw [Finset.range_succ, Finset.filter_insert]
      by_cases hB : B i
      · simp [hB]
      · rw [if_pos hB, Finset.card_insert_of_not_mem (by simp), if_neg hB]
    rw [hcard]
    by_cases hB : B i
    · rw [if_pos hB] at hstep
      push_cast [if_pos hB]
      linarith
    · rw [if_neg hB] at hstep
      have hc : 0 ≤ c := le_trans (abs_nonneg _) hstep
      push_cast [if_neg hB]
      linarith

theorem fs_boundary_card (w h : ℕ) :
    ((Finset.range (w * h)).filter
      (fun i => ¬(0 < i % w ∧ i % w + 1 < w ∧ i / w + 1 < h))).card ≤ w + 2 * h := by
  have hsub : (Finset.range (w * h)).filter
      (fun i => ¬(0 < i % w ∧ i % w + 1 < w ∧ i / w + 1 < h)) ⊆
      ((Finset.range (w * h)).filter (fun i => i % w = 0)) ∪
        (((Finset.range (w * h)).filter (fun i => i % w = w - 1)) ∪
          ((Finset.range (w * h)).filter (fun i => i / w = h - 1))) := by
    intro i hi
    simp only [Finset.mem_filter, Finset.mem_range, Finset.mem_union] at hi ⊢
    have hw : 0 < w := pos_w_of_lt w h i hi.1
    have hxw : i % w < w := Nat.mod_lt i hw
    have hyh : i / w < h := idx_div_lt w h i hi.1
    have hni := hi.2
    generalize i % w = x at *
    generalize i / w = y at *
    omega
  calc ((Finset.range (w * h)).filter
      (fun i => ¬(0 < i % w ∧ i % w + 1 < w ∧ i / w + 1 < h))).card
      ≤ _ := Finset.card_le_card hsub
    _ ≤ _ := Finset.card_union_le _ _
    _ ≤ ((Finset.range (w * h)).filter (fun i => i % w = 0)).card +
        (((Finset.range (w * h)).filter (fun i => i % w = w - 1)).card +
          ((Finset.range (w * h)).filter (fun i => i / w = h - 1)).card) :=
      Nat.add_le_add_left (Finset.card_union_le _ _) _
    _ ≤ h + (h + w) := by
      have c1 := card_col_le w h 0
      have c2 := card_col_le w h (w - 1)
      have c3 := card_row_le w h (h - 1)
      omega
    _ ≤ w + 2 * h := by omega

theorem stucki_boundary_card (w h : ℕ) :
    ((Finset.range (w * h)).filter
      (fun i => ¬(1 < i % w ∧ i % w + 2 < w ∧ i / w + 2 < h))).card ≤ 2 * w + 4 * h := by
  have hsub : (Finset.range (w * h)).filter
      (fun i => ¬(1 < i % w ∧ i % w + 2 < w ∧ i / w + 2 < h)) ⊆
      ((Finset.range (w * h)).filter (fun i => i % w = 0)) ∪
        (((Finset.range (w * h)).filter (fun i => i % w = 1)) ∪
          (((Finset.range (w * h)).filter (fun i => i % w = w - 1)) ∪
            (((Finset.range (w * h)).filter (fun i => i % w = w - 2)) ∪
              (((Finset.range (w * h)).filter (fun i => i / w = h - 1)) ∪
                ((Finset.range (w * h)).filter (fun i => i / w = h - 2)))))) := by
    intro i hi
    simp only [Finset.mem_filter, Finset.mem_range, Finset.mem_union] at hi ⊢
    have hw : 0 < w := pos_w_of_lt w h i hi.1
    have hxw : i % w < w := Nat.mod_lt i hw
    have hyh : i / w < h := idx_div_lt w h i hi.1
    have hni := hi.2
    generalize i % w = x at *
    generalize i / w = y at *
    omega
  calc ((Finset.range (w * h)).filter
      (fun i => ¬(1 < i % w ∧ i % w + 2 < w ∧ i / w + 2 < h))).card
      ≤ _ := Finset.card_le_card hsub
    _ ≤ _ := Finset.card_union_le _ _
    _ ≤ _ := Nat.add_le_add_left (Finset.card_union_le _ _) _
    _ ≤ _ := Nat.add_le_add_left (Nat.add_le_add_left (Finset.card_union_le _ _) _) _
    _ ≤ _ := Nat.add_le_add_left (Nat.add_le_add_left
        (Nat.add_le_add_left (Finset.card_union_le _ _) _) _) _
    _ ≤ _ := Nat.add_le_add_left (Nat.add_le_add_left (Nat.add_le_add_left
        (Nat.add_le_add_left (Finset.card_union_le _ _) _) _) _) _
    _ ≤ h + (h + (h + (h + (w + w)))) := by
      have c1 := card_col_le w h 0
      have c2 := card_col_le w h 1
      have c3 := card_col_le w h (w - 1)
      have c4 := card_col_le w h (w - 2)
      have c5 := card_row_le w h (h - 1)
      have c6 := card_row_le w h (h - 2)
      omega
    _ ≤ 2 * w + 4 * h := by omega

/-- Floyd-Steinberg conserves total ink up to boundary losses:
the deficit is at most `(w + 2h) * step / 2`, independent of the area. -/
theorem fs_sum_pres (intensity : ℕ → ℚ) (w h levels : ℕ) (hlev : 2 ≤ levels) :
    |sumF (w * h) (ditherFloydSteinberg intensity w h levels) -
      sumF (w * h) intensity| ≤
      ((w : ℚ) + 2 * h) * (255 / ((levels : ℚ) - 1)) / 2 := by
  have h2 : (2 : ℚ) ≤ (levels : ℚ) := by exact_mod_cast hlev
  have hstp : 0 < 255 / ((levels : ℚ) - 1) := by
    apply div_pos (by norm_num)
    linarith
  have hmain := foldl_sum_bound (w * h) (fsCell w h (255 / ((levels : ℚ) - 1)))
    (fun i => 0 < i % w ∧ i % w + 1 < w ∧ i / w + 1 < h)
    (255 / ((levels : ℚ) - 1) / 2)
    (fun g i hi => fsCell_bound w h _ hstp g i hi) intensity
  have hcard := fs_boundary_card w h
  have hcast : ((((Finset.range (w * h)).filter
      (fun i => ¬(0 < i % w ∧ i % w + 1 < w ∧ i / w + 1 < h))).card : ℚ)) ≤
      (w : ℚ) + 2 * (h : ℚ) := by
    exact_mod_cast hcard
  unfold ditherFloydSteinberg
  calc |sumF (w * h) ((List.range (w * h)).foldl
        (fsCell w h (255 / ((levels : ℚ) - 1))) intensity) - sumF (w * h) intensity|
      ≤ _ := hmain
    _ ≤ ((w : ℚ) + 2 * (h : ℚ)) * (255 / ((levels : ℚ) - 1) / 2) :=
      mul_le_mul_of_nonneg_right hcast (by positivity)
    _ = ((w : ℚ) + 2 * h) * (255 / ((levels : ℚ) - 1)) / 2 := by ring

/-- Stucki conserves total ink up to boundary losses:
the deficit is at most `(2w + 4h) * step / 2`, independent of the area. -/
theorem stucki_sum_pres (intensity : ℕ → ℚ) (w h levels : ℕ) (hlev : 2 ≤ levels) :
    |sumF (w * h) (ditherStucki intensity w h levels) - sumF (w * h) intensity| ≤
      (2 * (w : ℚ) + 4 * h) * (255 / ((levels : ℚ) - 1)) / 2 := by
  have h2 : (2 : ℚ) ≤ (levels : ℚ) := by exact_mod_cast hlev
  have hstp : 0 < 255 / ((levels : ℚ) - 1) := by
    apply div_pos (by norm_num)
    linarith
  have hmain := foldl_sum_bound (w * h) (stuckiCell w h (255 / ((levels : ℚ) - 1)))
    (fun i => 1 < i % w ∧ i % w + 2 < w ∧ i / w + 2 < h)
    (255 / ((levels : ℚ) - 1) / 2)
    (fun g i hi => stuckiCell_bound w h _ hstp g i hi) intensity
  have hcard := stucki_boundary_card w h
  have hcast : ((((Finset.range (w * h)).filter
      (fun i => ¬(1 < i % w ∧ i % w + 2 < w ∧ i / w + 2 < h))).card : ℚ)) ≤
      2 * (w : ℚ) + 4 * (h : ℚ) := by
    exact_mod_cast hcard
  unfold ditherStucki
  calc |sumF (w * h) ((List.range (w * h)).foldl
        (stuckiCell w h (255 / ((levels : ℚ) - 1))) intensity) - sumF (w * h) intensity|
      ≤ _ := hmain
    _ ≤ (2 * (w : ℚ) + 4 * (h : ℚ)) * (255 / ((levels : ℚ) - 1) / 2) :=
      mul_le_mul_of_nonneg_right hcast (by positivity)
    _ = (2 * (w : ℚ) + 4 * h) * (255 / ((levels : ℚ) - 1)) / 2 := by ring

/-- A Floyd-Steinberg cell step never touches the cells the raster scan has
already visited: at `j ≤ i` the new field value is the fresh quantized value
at `j = i` and the old value below. -/
theorem fsCell_apply_le (w h : ℕ) (stp : ℚ) (f : ℕ → ℚ) (i : ℕ)
    (hi : i < w * h) (j : ℕ) (hj : j ≤ i) :
    fsCell w h stp f i j =
      if j = i then (jround (f i / stp) : ℚ) * stp else f j := by
  have hw : 0 < w := pos_w_of_lt w h i hi
  have hxw : i % w < w := Nat.mod_lt i hw
  simp only [fsCell]
  rw [condAdd_ne _ _ _ _ _ (fun _ => by omega),
    condAdd_ne _ _ _ _ _ (fun _ => by omega),
    condAdd_ne _ _ _ _ _ (fun hc => by omega),
    condAdd_ne _ _ _ _ _ (fun _ => by omega)]
  simp [updF]

/-- An Atkinson cell step never touches already-visited cells. -/
theorem atkCell_apply_le (w h : ℕ) (stp : ℚ) (f : ℕ → ℚ) (i : ℕ)
    (hi : i < w * h) (j : ℕ) (hj : j ≤ i) :
    atkCell w h stp f i j =
      if j = i then (jround (f i / stp) : ℚ) * stp else f j := by
  have hw : 0 < w := pos_w_of_lt w h i hi
  have hxw : i % w < w := Nat.mod_lt i hw
  simp only [atkCell]
  rw [condAdd_ne _ _ _ _ _ (fun _ => by omega),
    condAdd_ne _ _ _ _ _ (fun _ => by omega),
    condAdd_ne _ _ _ _ _ (fun _ => by omega),
    condAdd_ne _ _ _ _ _ (fun hc => by omega),
    condAdd_ne _ _ _ _ _ (fun _ => by omega),
    condAdd_ne _ _ _ _ _ (fun _ => by omega)]
  simp [updF]

/-- A Stucki cell step never touches already-visited cells. -/
theorem stuckiCell_apply_le (w h : ℕ) (stp : ℚ) (f : ℕ → ℚ) (i : ℕ)
    (hi : i < w * h) (j : ℕ) (hj : j ≤ i) :
    stuckiCell w h stp f i j =
      if j = i then (jround (f i / stp) : ℚ) * stp else f j := by
  have hw : 0 < w := pos_w_of_lt w h i hi
  have hxw : i % w < w := Nat.mod_lt i hw
  simp only [stuckiCell]
  rw [condAdd_ne _ _ _ _ _ (fun hc => by omega),
    condAdd_ne _ _ _ _ _ (fun _ => by omega),
    condAdd_ne _ _ _ _ _ (fun _ => by omega),
    condAdd_ne _ _ _ _ _ (fun hc => by omega),
    condAdd_ne _ _ _ _ _ (fun hc => by omega),
    condAdd_ne _ _ _ _ _ (fun _ => by omega),
    condAdd_ne _ _ _ _ _ (fun _ => by omega),
    condAdd_ne _ _ _ _ _ (fun _ => by omega),
    condAdd_ne _ _ _ _ _ (fun hc => by omega),
    condAdd_ne _ _ _ _ _ (fun hc => by omega),
    condAdd_ne _ _ _ _ _ (fun _ => by omega),
    condAdd_ne _ _ _ _ _ (fun _ => by omega)]
  simp [updF]

/-- Folding cell steps that write `round(g i / step) * step` at the scan
position and never revisit earlier cells leaves every cell an exact integer
multiple of the step. -/
theorem foldl_cells_multiple (N : ℕ) (stp : ℚ) (cell : (ℕ → ℚ) → ℕ → ℕ → ℚ)
    (hcell : ∀ g i, i < N → ∀ j, j ≤ i →
      cell g i j = if j = i then (jround (g i / stp) : ℚ) * stp else g j)
    (f : ℕ → ℚ) :
    ∀ j, j < N → ∃ m : ℤ, ((List.range N).foldl cell f) j = m * stp := by
  refine foldlRangeInv (fun k g => ∀ j, j < k → ∃ m : ℤ, g j = m * stp)
    cell N f ?_ ?_
  · intro j hj
    omega
  · intro i g hiN hg j hj
    rcases Nat.lt_or_ge j i with hlt | hge
    · rw [hcell g i hiN j (le_of_lt hlt), if_neg (Nat.ne_of_lt hlt)]
      exact hg j hlt
    · have hji : j = i := by omega
      subst hji
      rw [hcell g j hiN j le_rfl, if_pos rfl]
      exact ⟨jround (g j / stp), rfl⟩

/-- Closed form of the stipple scan: the cell at flat index `j` is driven by
the `j+1`-st state of the fixed-seed generator, independently of every other
cell. -/
theorem stippleIntensity_spec (grey : ℕ → ℚ) (w h : ℕ) (dol : Bool) (j : ℕ)
    (hj : j < w * h) :
    stippleIntensity grey w h dol j =
      (if (lcgSeed (j + 1) : ℚ) / 2147483647 <
          (if dol then 255 - grey j else grey j) / 255 *
            ((if dol then 255 - grey j else grey j) / 255) then
        (if dol then 255 - grey j else grey j) * (3 / 2)
      else 0) := by
  have main := foldlRangeInv
    (fun k st => st.1 = lcgSeed k ∧ ∀ i, i < k → st.2 i =
      (if (lcgSeed (i + 1) : ℚ) / 2147483647 <
          (if dol then 255 - grey i else grey i) / 255 *
            ((if dol then 255 - grey i else grey i) / 255) then
        (if dol then 255 - grey i else grey i) * (3 / 2)
      else 0))
    (stippleStep grey dol) (w * h) (42, fun _ => 0) ?_ ?_
  · exact main.2 j hj
  · exact ⟨rfl, fun i hi => absurd hi (Nat.not_lt_zero i)⟩
  · intro i st hiN hst
    constructor
    · simp only [stippleStep]
      rw [hst.1]
      rfl
    · intro i2 hi2
      rcases Nat.lt_or_ge i2 i with hlt | hge
      · simp only [stippleStep]
        rw [updF_ne _ _ _ _ (Nat.ne_of_lt hlt)]
        exact hst.2 i2 hlt
      · have hii : i2 = i := by omega
        subst hii
        simp only [stippleStep]
        rw [updF_self, hst.1]
        rfl

-- ---- Auto-optimizer on a uniform mid-grey image ----

theorem jround_eq_of (q : ℚ) (z : ℤ) (h1 : (z : ℚ) ≤ q + 1 / 2)
    (h2 : q + 1 / 2 < z + 1) : jround q = z := by
  unfold jround
  rw [Int.floor_eq_iff]
  · exact ⟨h1, by linarith⟩

theorem lumOf_midgrey : lumOf (128, 128, 128) = 128 := by
  unfold lumOf
  apply jround_eq_of <;> norm_num

theorem histOf_midgrey (n : ℕ) :
    histOf (List.replicate n ((128 : ℚ), (128 : ℚ), (128 : ℚ))) =
      fun i => if i = 128 then n else 0 := by
  funext i
  simp only [histOf, List.map_replicate, lumOf_midgrey, List.count_replicate,
    beq_iff_eq]
  by_cases hc : i = 128
  · simp [hc]
  · rw [if_neg (by omega), if_neg hc]

theorem bwLoop_zeros (hist : ℕ → ℕ) (lo hi : ℤ) (hlo : 1 ≤ lo) (hhi : 1 ≤ hi) :
    ∀ (m fuel i bp : ℕ), (∀ k, k < m → hist (i + k) = 0) →
      bwLoop hist lo hi (fuel + m) i 0 bp = bwLoop hist lo hi fuel (i + m) 0 bp := by
  intro m
  induction m with
  | zero => intro fuel i bp _; rfl
  | succ n ih =>
    intro fuel i bp hz
    have hz0 : hist i = 0 := by
      have := hz 0 (by omega)
      simpa using this
    have step1 : bwLoop hist lo hi (fuel + n + 1) i 0 bp =
        bwLoop hist lo hi (fuel + n) (i + 1) 0 bp := by
      simp only [bwLoop, hz0]
      rw [if_neg (by omega : ¬ hi ≤ ((0 + 0 : ℕ) : ℤ)),
        if_neg (by rintro ⟨hc, -⟩; omega :
          ¬(lo ≤ ((0 + 0 : ℕ) : ℤ) ∧ bp = 0))]
    have harg : fuel + (n + 1) = fuel + n + 1 := by omega
    rw [harg, step1, ih fuel (i + 1) bp (fun k hk => by
      have := hz (k + 1) (by omega)
      rwa [show i + (k + 1) = i + 1 + k by omega] at this)]
    rw [show i + 1 + n = i + (n + 1) by omega]

theorem bwPoints_midgrey (n : ℕ) (hn : 100 ≤ n) :
    bwPoints (List.replicate n ((128 : ℚ), (128 : ℚ), (128 : ℚ))) = (128, 128) := by
  unfold bwPoints
  rw [histOf_midgrey]
  simp only [List.length_replicate]
  have hnq : (100 : ℚ) ≤ (n : ℚ) := by exact_mod_cast hn
  have hlo1 : 1 ≤ jround ((n : ℚ) * 5 / 1000) := by
    unfold jround
    rw [Int.le_floor]
    push_cast
    linarith
  have hlo2 : jround ((n : ℚ) * 5 / 1000) ≤ (n : ℤ) := by
    unfold jround
    rw [Int.floor_le_iff]
    push_cast
    linarith
  have hhi1 : 1 ≤ jround ((n : ℚ) * 995 / 1000) := by
    unfold jround
    rw [Int.le_floor]
    push_cast
    linarith
  have hhi2 : jround ((n : ℚ) * 995 / 1000) ≤ (n : ℤ) := by
    unfold jround
    rw [Int.floor_le_iff]
    push_cast
    linarith
  have hz := bwLoop_zeros (fun i => if i = 128 then n else 0)
    (jround ((n : ℚ) * 5 / 1000)) (jround ((n : ℚ) * 995 / 1000)) hlo1 hhi1
    128 128 0 0 (fun k hk => by simp; omega)
  rw [show (256 : ℕ) = 128 + 128 from rfl, hz]
  show bwLoop _ _ _ (127 + 1) 128 0 0 = (128, 128)
  rw [bwLoop]
  have hcond : ((0 + if (128 : ℕ) = 128 then n else 0 : ℕ) : ℤ) = (n : ℤ) := by
    simp
  rw [if_pos (show (jround ((n : ℚ) * 5 / 1000) ≤
        ((0 + if (128 : ℕ) = 128 then n else 0 : ℕ) : ℤ)) ∧ ((0 : ℕ) = 0) from
      ⟨by rw [hcond]; exact hlo2, rfl⟩),
    if_pos (show jround ((n : ℚ) * 995 / 1000) ≤
        ((0 + if (128 : ℕ) = 128 then n else 0 : ℕ) : ℤ) from by
      rw [hcond]; exact hhi2)]

theorem meanLum_midgrey (n : ℕ) (hn : 100 ≤ n) :
    meanLum (List.replicate n ((128 : ℚ), (128 : ℚ), (128 : ℚ))) = 128 := by
  unfold meanLum
  rw [bwPoints_midgrey n hn, histOf_midgrey]
  have hnpos : 0 < n := by omega
  have hn0 : (n : ℚ) ≠ 0 := by
    have h0 : (0 : ℚ) < (n : ℚ) := by exact_mod_cast hnpos
    exact ne_of_gt h0
  simp only [Finset.Icc_self, Finset.sum_singleton, if_pos rfl, if_true, ite_true]
  norm_num [hnpos]
  field_simp

theorem normalizedMean_midgrey (n : ℕ) (hn : 100 ≤ n) :
    normalizedMean (List.replicate n ((128 : ℚ), (128 : ℚ), (128 : ℚ))) = 0 := by
  unfold normalizedMean
  rw [bwPoints_midgrey n hn, meanLum_midgrey n hn]
  norm_num

theorem autoBrightness_midgrey (n : ℕ) (hn : 100 ≤ n) :
    autoBrightnessRaw (List.replicate n ((128 : ℚ), (128 : ℚ), (128 : ℚ))) = 0 := by
  unfold autoBrightnessRaw
  rw [meanLum_midgrey n hn, show ((128 : ℚ) - 128) * 6 / 10 = 0 by norm_num]
  apply jround_eq_of <;> norm_num

theorem autoContrast_midgrey (n : ℕ) (hn : 100 ≤ n) :
    autoContrastRaw (List.replicate n ((128 : ℚ), (128 : ℚ), (128 : ℚ))) = 22000 := by
  unfold autoContrastRaw
  rw [bwPoints_midgrey n hn]
  norm_num
  apply jround_eq_of <;> norm_num

theorem autoGamma_midgrey (n : ℕ) (hn : 100 ≤ n) :
    autoGammaRaw (List.replicate n ((128 : ℚ), (128 : ℚ), (128 : ℚ))) = 1 := by
  unfold autoGammaRaw
  rw [normalizedMean_midgrey n hn]
  norm_num

/-- On a uniform mid-grey image of at least 100 pixels the auto-optimizer
returns brightness 0, gamma 1 and contrast 200 (the degenerate tonal range
of 0 triggers the maximal contrast boost, clamped to the ceiling 200). -/
theorem autoOptimize_midgrey (n : ℕ) (hn : 100 ≤ n) (cur : GlobalSettings) :
    (autoOptimizeSettings (List.replicate n ((128 : ℚ), (128 : ℚ), (128 : ℚ)))
        cur).brightness = 0 ∧
      (autoOptimizeSettings (List.replicate n ((128 : ℚ), (128 : ℚ), (128 : ℚ)))
        cur).gamma = 1 ∧
      (autoOptimizeSettings (List.replicate n ((128 : ℚ), (128 : ℚ), (128 : ℚ)))
        cur).contrast = 200 := by
  unfold autoOptimizeSettings
  refine ⟨?_, ?_, ?_⟩
  · show max (-150) (min 150 ((autoBrightnessRaw _ : ℤ) : ℚ)) = 0
    rw [autoBrightness_midgrey n hn]
    norm_num
  · show ((jroundR (autoGammaRaw _ * 100) : ℤ) : ℝ) / 100 = 1
    rw [autoGamma_midgrey n hn]
    have h100 : jroundR ((1 : ℝ) * 100) = 100 := by
      unfold jroundR
      rw [Int.floor_eq_iff]
      constructor <;> norm_num
    rw [h100]
    norm_num
  · show max 80 (min 200 ((autoContrastRaw _ : ℤ) : ℚ)) = 200
    rw [autoContrast_midgrey n hn]
    norm_num

-- ---- Nearest-match scan of the character LUT ----

theorem bestScan_cons (t : ℚ) (b p : Char × ℚ) (ps : List (Char × ℚ)) :
    bestScan t b (p :: ps) =
      bestScan t (if |p.2 - t| < |b.2 - t| then p else b) ps := by
  unfold bestScan
  rw [List.foldl_cons]

theorem bestScan_mem (t : ℚ) (b : Char × ℚ) (l : List (Char × ℚ)) :
    bestScan t b l = b ∨ bestScan t b l ∈ l := by
  induction l generalizing b with
  | nil => exact Or.inl rfl
  | cons p ps ih =>
    rw [bestScan_cons]
    rcases ih (if |p.2 - t| < |b.2 - t| then p else b) with he | hm
    · by_cases hc : |p.2 - t| < |b.2 - t|
      · rw [if_pos hc] at he ⊢
        right
        rw [he]
        exact List.mem_cons_self p ps
      · rw [if_neg hc] at he ⊢
        exact Or.inl he
    · exact Or.inr (List.mem_cons_of_mem p hm)

theorem bestScan_min (t : ℚ) (b : Char × ℚ) (l : List (Char × ℚ)) :
    |(bestScan t b l).2 - t| ≤ |b.2 - t| ∧
      ∀ p ∈ l, |(bestScan t b l).2 - t| ≤ |p.2 - t| := by
  induction l generalizing b with
  | nil => exact ⟨le_refl _, fun p hp => absurd hp (List.not_mem_nil p)⟩
  | cons p ps ih =>
    rw [bestScan_cons]
    have hih := ih (if |p.2 - t| < |b.2 - t| then p else b)
    have hb2 : |(if |p.2 - t| < |b.2 - t| then p else b).2 - t| ≤ |b.2 - t| := by
      by_cases hc : |p.2 - t| < |b.2 - t|
      · rw [if_pos hc]
        exact le_of_lt hc
      · rw [if_neg hc]
    have hp2 : |(if |p.2 - t| < |b.2 - t| then p else b).2 - t| ≤ |p.2 - t| := by
      by_cases hc : |p.2 - t| < |b.2 - t|
      · rw [if_pos hc]
      · rw [if_neg hc]
        exact le_of_not_lt hc
    refine ⟨le_trans hih.1 hb2, ?_⟩
    intro q hq
    rcases List.mem_cons.mp hq with hqp | hqps
    · subst hqp
      exact le_trans hih.1 hp2
    · exact hih.2 q hqps

theorem midpoint_ge (a b t : ℚ) (hba : b < a) (habs : |a - t| ≤ |b - t|) :
    a + b ≤ 2 * t := by
  rcases abs_cases (a - t) with ⟨h1, _⟩ | ⟨h1, _⟩ <;>
    rcases abs_cases (b - t) with ⟨h2, _⟩ | ⟨h2, _⟩ <;> linarith

theorem midpoint_le (a b t : ℚ) (hba : b < a) (habs : |b - t| ≤ |a - t|) :
    2 * t ≤ a + b := by
  rcases abs_cases (a - t) with ⟨h1, _⟩ | ⟨h1, _⟩ <;>
    rcases abs_cases (b - t) with ⟨h2, _⟩ | ⟨h2, _⟩ <;> linarith

/-- The strict-improvement nearest-match scan is monotone in the target:
a larger target density never selects a smaller density. -/
theorem bestScan_mono (b : Char × ℚ) (l : List (Char × ℚ)) (t1 t2 : ℚ)
    (ht : t1 ≤ t2) : (bestScan t1 b l).2 ≤ (bestScan t2 b l).2 := by
  by_contra hlt
  push_neg at hlt
  have m1 := bestScan_min t1 b l
  have m2 := bestScan_min t2 b l
  have h12 : |(bestScan t1 b l).2 - t1| ≤ |(bestScan t2 b l).2 - t1| := by
    rcases bestScan_mem t2 b l with he | hm
    · rw [he]
      exact m1.1
    · exact m1.2 _ hm
  have h21 : |(bestScan t2 b l).2 - t2| ≤ |(bestScan t1 b l).2 - t2| := by
    rcases bestScan_mem t1 b l with he | hm
    · rw [he]
      exact m2.1
    · exact m2.2 _ hm
  have e1 := midpoint_ge (bestScan t1 b l).2 (bestScan t2 b l).2 t1 hlt h12
  have e2 := midpoint_le (bestScan t1 b l).2 (bestScan t2 b l).2 t2 hlt h21
  have ht12 : t1 = t2 := le_antisymm ht (by linarith)
  rw [ht12] at hlt
  exact lt_irrefl _ hlt

theorem sorted_head_le_getLast (p : Char × ℚ) (rest : List (Char × ℚ))
    (hs : List.Sorted densLE (p :: rest)) :
    p.2 ≤ (List.getLast (p :: rest) (List.cons_ne_nil p rest)).2 := by
  have hmem := List.getLast_mem (List.cons_ne_nil p rest)
  rcases List.mem_cons.mp hmem with he | hm
  · rw [he]
  · exact (List.sorted_cons.mp hs).1 _ hm

-- ======================================================================
-- Claim theorems
-- ======================================================================

/-- Claim C1 (amended): on a uniformly mid-grey image (every pixel with
luminance 128) of at least 100 pixels, `autoOptimizeSettings` returns
brightness 0 and gamma 1.0, but contrast 200, not ≈100: the degenerate
black/white range of 0 triggers the `100 * 220 / max(1, range)` boost,
clamped to its ceiling 200. -/
theorem autoOptimize_midgrey_claim (n : ℕ) (hn : 100 ≤ n)
    (cur : GlobalSettings) :
    (autoOptimizeSettings (List.replicate n ((128 : ℚ), (128 : ℚ), (128 : ℚ)))
        cur).brightness = 0 ∧
      (autoOptimizeSettings (List.replicate n ((128 : ℚ), (128 : ℚ), (128 : ℚ)))
        cur).gamma = 1 ∧
      (autoOptimizeSettings (List.replicate n ((128 : ℚ), (128 : ℚ), (128 : ℚ)))
        cur).contrast = 200 :=
  autoOptimize_midgrey n hn cur

/-- Witness for C1 at a concrete 200-pixel mid-grey image. -/
theorem autoOptimize_midgrey_claim_witness :
    (100 ≤ 200) ∧
      ((autoOptimizeSettings
          (List.replicate 200 ((128 : ℚ), (128 : ℚ), (128 : ℚ)))
          defaultSettings).brightness = 0 ∧
        (autoOptimizeSettings
          (List.replicate 200 ((128 : ℚ), (128 : ℚ), (128 : ℚ)))
          defaultSettings).gamma = 1 ∧
        (autoOptimizeSettings
          (List.replicate 200 ((128 : ℚ), (128 : ℚ), (128 : ℚ)))
          defaultSettings).contrast = 200) :=
  ⟨by norm_num, autoOptimize_midgrey_claim 200 (by norm_num) defaultSettings⟩

/-- Counterexample to C1 as stated: on a 200-pixel uniformly mid-grey image
the returned contrast is 200, not approximately 100. -/
theorem autoOptimize_midgrey_contrast_cex :
    (autoOptimizeSettings (List.replicate 200 ((128 : ℚ), (128 : ℚ), (128 : ℚ)))
      defaultSettings).contrast ≠ 100 := by
  have h := autoOptimize_midgrey 200 (by norm_num) defaultSettings
  rw [h.2.2]
  norm_num

/-- Claim C2 (amended): the Floyd-Steinberg and Stucki error-diffusion
dithers conserve total ink up to losses at the field edges: the deficit is
bounded by `(w + 2h) * step / 2` resp. `(2w + 4h) * step / 2`, proportional
to the perimeter and independent of the area.  Atkinson is excluded: it
deliberately discards 2/8 of every cell's quantization error, an
area-proportional loss (see the counterexample). -/
theorem errorDiffusion_ink_conservation (intensity : ℕ → ℚ) (w h levels : ℕ)
    (hlev : 2 ≤ levels) :
    |sumF (w * h) (ditherFloydSteinberg intensity w h levels) -
        sumF (w * h) intensity| ≤
        ((w : ℚ) + 2 * h) * (255 / ((levels : ℚ) - 1)) / 2 ∧
      |sumF (w * h) (ditherStucki intensity w h levels) -
        sumF (w * h) intensity| ≤
        (2 * (w : ℚ) + 4 * h) * (255 / ((levels : ℚ) - 1)) / 2 :=
  ⟨fs_sum_pres intensity w h levels hlev, stucki_sum_pres intensity w h levels hlev⟩

/-- Witness for C2 on a concrete 1×1 field with 2 levels. -/
theorem errorDiffusion_ink_conservation_witness :
    2 ≤ 2 ∧
      (|sumF (1 * 1) (ditherFloydSteinberg (fun _ => 0) 1 1 2) -
          sumF (1 * 1) (fun _ => 0)| ≤
          (((1 : ℕ) : ℚ) + 2 * ((1 : ℕ) : ℚ)) * (255 / (((2 : ℕ) : ℚ) - 1)) / 2 ∧
        |sumF (1 * 1) (ditherStucki (fun _ => 0) 1 1 2) -
          sumF (1 * 1) (fun _ => 0)| ≤
          (2 * ((1 : ℕ) : ℚ) + 4 * ((1 : ℕ) : ℚ)) * (255 / (((2 : ℕ) : ℚ) - 1)) / 2) :=
  ⟨by norm_num, errorDiffusion_ink_conservation (fun _ => 0) 1 1 2 (by norm_num)⟩

set_option maxRecDepth 40000 in
/-- Counterexample to C2 as stated for Atkinson: on a concrete 6×6 field
(levels = 256, step = 1) the ink deficit of `ditherAtkinson` strictly
exceeds `(step/2) * atkFailWeight 6 6`, the largest total loss the
boundary-clamped kernel slots could possibly account for, so the deficit is
not attributable to the field edges. -/
theorem atkinson_area_loss_cex :
    255 / ((256 : ℚ) - 1) / 2 * atkFailWeight 6 6 <
      |sumF (6 * 6) (ditherAtkinson cexAtk 6 6 256) - sumF (6 * 6) cexAtk| := by
  with_unfolding_all decide

/-- Claim C3 (amended): the pipeline does not clamp an empty ramp:
`buildCharLUT` fails on the empty ramp (the source evaluates
`charDensityPairs[0].density` on an empty array and throws a TypeError,
modelled as `none`) and returns a table exactly for nonempty ramps.  The
one-space default the spec describes lives in the excluded UI control
surface, not in the pipeline. -/
theorem buildCharLUT_empty_fails (pairs : List (Char × ℚ)) :
    buildCharLUT pairs = none ↔ pairs = [] := by
  have hp := List.perm_insertionSort densLE pairs
  rcases hs : List.insertionSort densLE pairs with _ | ⟨p, rest⟩
  · rw [hs] at hp
    unfold buildCharLUT
    rw [hs]
    exact ⟨fun _ => hp.symm.eq_nil, fun _ => rfl⟩
  · rw [hs] at hp
    unfold buildCharLUT
    rw [hs]
    simp only [reduceCtorEq, false_iff]
    intro hnil
    rw [hnil] at hp
    simpa using hp.length_eq

/-- Counterexample to C3 as stated: on the empty ramp `buildCharLUT` does
not return a valid 256-entry table; it fails. -/
theorem buildCharLUT_empty_cex : buildCharLUT ([] : List (Char × ℚ)) = none := rfl

/-- Claim C4: a cell whose post-step intensity (the contrast-scaled,
optionally inverted value that the threshold test examines) is strictly
below the layer threshold is zeroed, and the renderer then draws no glyph
for it; a cell whose post-step intensity equals the threshold exactly is
kept (the cutoff is non-strict). -/
theorem threshold_cutoff (contrast : ℚ) (invert : Bool) (threshold : ℚ)
    (v : ℚ) (lut : ℕ → Char) :
    ((if invert then 255 - v * (contrast / 100) else v * (contrast / 100)) <
        threshold →
      postStep contrast invert threshold v = 0 ∧
        cellGlyph lut (postStep contrast invert threshold v) = none) ∧
    ((if invert then 255 - v * (contrast / 100) else v * (contrast / 100)) =
        threshold →
      postStep contrast invert threshold v = max 0 (min 255 threshold)) := by
  constructor
  · intro hlt
    have h0 : postStep contrast invert threshold v = 0 := by
      simp only [postStep]
      rw [if_pos hlt]
      norm_num
    refine ⟨h0, ?_⟩
    rw [h0]
    simp only [cellGlyph]
    rw [if_pos (by norm_num : (max 0 (min 255 (0 : ℚ))) < 3)]
  · intro heq
    simp only [postStep]
    rw [if_neg (by rw [heq]; exact lt_irrefl threshold), heq]

/-- Witness for C4 at concrete values 4 (below threshold 5) and 5 (at the
threshold). -/
theorem threshold_cutoff_witness :
    ((if false then 255 - (4 : ℚ) * (100 / 100) else (4 : ℚ) * (100 / 100)) < 5 ∧
      postStep 100 false 5 4 = 0 ∧
      cellGlyph (fun _ => '@') (postStep 100 false 5 4) = none) ∧
    ((if false then 255 - (5 : ℚ) * (100 / 100) else (5 : ℚ) * (100 / 100)) = 5 ∧
      postStep 100 false 5 5 = max 0 (min 255 5)) := by
  refine ⟨⟨by norm_num, ?_, ?_⟩, by norm_num, ?_⟩
  · exact ((threshold_cutoff 100 false 5 4 (fun _ => '@')).1 (by norm_num)).1
  · exact ((threshold_cutoff 100 false 5 4 (fun _ => '@')).1 (by norm_num)).2
  · exact (threshold_cutoff 100 false 5 5 (fun _ => '@')).2 (by norm_num)

/-- Claim C5: with posterize 0, gamma 1, contrast 100, brightness 0,
blackPoint 0, whitePoint 255, blur 0, sharpen 0, highPassRadius 0 and
invert false (background color arbitrary), the global tone adjuster maps
every greyscale sample (a value in [0,255]) to itself. -/
theorem adjuster_identity (bg : String) (w h : ℕ) (g : ℕ → ℚ) (i : ℕ)
    (h0 : 0 ≤ g i) (h255 : g i ≤ 255) :
    createAdjustedField
      { contrast := 100, brightness := 0, gamma := 1, invert := false,
        highPassRadius := 0, blackPoint := 0, whitePoint := 255, blur := 0,
        sharpen := 0, posterize := 0, backgroundColor := bg } w h g i =
      (g i : ℝ) := by
  unfold createAdjustedField adjustSample
  norm_num
  have hgi0 : (0 : ℝ) ≤ (g i : ℝ) := by exact_mod_cast h0
  have hgi255 : (g i : ℝ) ≤ 255 := by exact_mod_cast h255
  rw [max_eq_right hgi0,
    show (255 : ℝ) * ((g i : ℝ) / 255) = (g i : ℝ) by ring,
    min_eq_right hgi255, max_eq_right hgi0]

/-- Witness for C5 at the sample value 100. -/
theorem adjuster_identity_witness :
    (0 : ℚ) ≤ 100 ∧ (100 : ℚ) ≤ 255 ∧
      createAdjustedField
        { contrast := 100, brightness := 0, gamma := 1, invert := false,
          highPassRadius := 0, blackPoint := 0, whitePoint := 255, blur := 0,
          sharpen := 0, posterize := 0, backgroundColor := "transparent" }
        1 1 (fun _ => 100) 0 = ((100 : ℚ) : ℝ) :=
  ⟨by norm_num, by norm_num,
    adjuster_identity "transparent" 1 1 (fun _ => 100) 0 (by norm_num) (by norm_num)⟩

/-- Claim C6: the 256-entry character LUT built by `buildCharLUT` is
non-decreasing in measured ink coverage: for intensities `a < b` in
[0,255], the density of the glyph selected at `a` is at most the density of
the glyph selected at `b`. -/
theorem buildCharLUT_monotone (pairs : List (Char × ℚ)) (lut : ℕ → Char × ℚ)
    (hsome : buildCharLUT pairs = some lut) (a b : ℕ) (_ha : a ≤ 255)
    (_hb : b ≤ 255) (hab : a < b) : (lut a).2 ≤ (lut b).2 := by
  have hsort := List.sorted_insertionSort densLE pairs
  unfold buildCharLUT at hsome
  rcases hs : List.insertionSort densLE pairs with _ | ⟨p, rest⟩
  · rw [hs] at hsome
    simp at hsome
  · rw [hs] at hsort hsome
    simp only [Option.some.injEq] at hsome
    rw [← hsome]
    simp only []
    have hminmax : p.2 ≤ (List.getLast (p :: rest) (List.cons_ne_nil p rest)).2 :=
      sorted_head_le_getLast p rest hsort
    have hrange : 0 < (if (List.getLast (p :: rest) (List.cons_ne_nil p rest)).2 - p.2 = 0
        then 1 else (List.getLast (p :: rest) (List.cons_ne_nil p rest)).2 - p.2) := by
      split
      · norm_num
      · rename_i hne
        have hge : 0 ≤ (List.getLast (p :: rest) (List.cons_ne_nil p rest)).2 - p.2 := by
          linarith
        exact lt_of_le_of_ne hge (Ne.symm hne)
    apply bestScan_mono
    have hab2 : (a : ℚ) ≤ (b : ℚ) := by exact_mod_cast hab.le
    gcongr

/-- Witness for C6 on a concrete one-glyph ramp. -/
theorem buildCharLUT_monotone_witness :
    buildCharLUT [('x', (0 : ℚ))] =
      some ((buildCharLUT [('x', (0 : ℚ))]).getD (fun _ => ('x', 0))) ∧
      (0 : ℕ) ≤ 255 ∧ (255 : ℕ) ≤ 255 ∧ (0 : ℕ) < 255 ∧
      (((buildCharLUT [('x', (0 : ℚ))]).getD (fun _ => ('x', 0)) 0).2 ≤
        ((buildCharLUT [('x', (0 : ℚ))]).getD (fun _ => ('x', 0)) 255).2) := by
  refine ⟨?_, by norm_num, by norm_num, by norm_num, ?_⟩
  · with_unfolding_all rfl
  · exact buildCharLUT_monotone [('x', (0 : ℚ))]
      ((buildCharLUT [('x', (0 : ℚ))]).getD (fun _ => ('x', 0)))
      (by with_unfolding_all rfl) 0 255
      (by norm_num) (by norm_num) (by norm_num)

/-- Claim C7: applying the `none`-mode quantization twice yields the same
field as applying it once: `ditherNone` is a projection. -/
theorem ditherNone_idempotent (intensity : ℕ → ℚ) (w h levels : ℕ) :
    ditherNone (ditherNone intensity w h levels) w h levels =
      ditherNone intensity w h levels := by
  funext j
  unfold ditherNone
  by_cases hj : j < w * h
  · rw [if_pos hj, if_pos hj]
    exact jround_int_mul _ _
  · rw [if_neg hj, if_neg hj]

/-- Claim C8: `autoOptimizeSettings` merges its estimates into the current
settings with an object spread, so every field other than blackPoint,
whitePoint, brightness, contrast and gamma is returned untouched. -/
theorem autoOptimize_untouched_fields (pixels : List (ℚ × ℚ × ℚ))
    (current : GlobalSettings) :
    (autoOptimizeSettings pixels current).invert = current.invert ∧
      (autoOptimizeSettings pixels current).highPassRadius =
        current.highPassRadius ∧
      (autoOptimizeSettings pixels current).blur = current.blur ∧
      (autoOptimizeSettings pixels current).sharpen = current.sharpen ∧
      (autoOptimizeSettings pixels current).posterize = current.posterize ∧
      (autoOptimizeSettings pixels current).backgroundColor =
        current.backgroundColor := by
  cases current
  exact ⟨rfl, rfl, rfl, rfl, rfl, rfl⟩

/-- Claim C9: the stipple intensity algorithm is deterministic: each output
cell depends only on the cell's own darkness and the fixed-seed linear
congruential generator state `lcgSeed (j+1)` (seed 42, multiplier
1103515245, increment 12345, modulus 2^31), so identical inputs always
produce identical fields; each cell is `darkness * 1.5` exactly when the
generator draw is below `(darkness/255)²` and 0 otherwise. -/
theorem stipple_deterministic (grey : ℕ → ℚ) (w h : ℕ) (dol : Bool) (j : ℕ)
    (hj : j < w * h) :
    stippleIntensity grey w h dol j =
      (if (lcgSeed (j + 1) : ℚ) / 2147483647 <
          (if dol then 255 - grey j else grey j) / 255 *
            ((if dol then 255 - grey j else grey j) / 255) then
        (if dol then 255 - grey j else grey j) * (3 / 2)
      else 0) ∧
    (stippleIntensity grey w h dol j = 0 ∨
      stippleIntensity grey w h dol j =
        (if dol then 255 - grey j else grey j) * (3 / 2)) := by
  have hspec := stippleIntensity_spec grey w h dol j hj
  refine ⟨hspec, ?_⟩
  rw [hspec]
  by_cases hsel : (lcgSeed (j + 1) : ℚ) / 2147483647 <
      (if dol then 255 - grey j else grey j) / 255 *
        ((if dol then 255 - grey j else grey j) / 255)
  · rw [if_pos hsel]
    right
    rfl
  · rw [if_neg hsel]
    left
    rfl

/-- Witness for C9 at a concrete one-cell black field. -/
theorem stipple_deterministic_witness :
    (0 < 1 * 1) ∧
      (stippleIntensity (fun _ => 0) 1 1 false 0 =
        (if (lcgSeed (0 + 1) : ℚ) / 2147483647 <
            (if false then 255 - (0 : ℚ) else 0) / 255 *
              ((if false then 255 - (0 : ℚ) else 0) / 255) then
          (if false then 255 - (0 : ℚ) else 0) * (3 / 2)
        else 0) ∧
        (stippleIntensity (fun _ => 0) 1 1 false 0 = 0 ∨
          stippleIntensity (fun _ => 0) 1 1 false 0 =
            (if false then 255 - (0 : ℚ) else 0) * (3 / 2))) :=
  ⟨by norm_num, stipple_deterministic (fun _ => 0) 1 1 false 0 (by norm_num)⟩

/-- Claim C10: every cell of an error-diffusion dithered field
(floyd-steinberg, atkinson, stucki) is an exact integer multiple of
`step = 255/(levels-1)`: error is only ever pushed to cells the raster scan
has not yet visited, so each cell keeps the quantized value assigned when
the scan reached it. -/
theorem dither_outputs_quantized (w h levels : ℕ) (f : ℕ → ℚ) (j : ℕ)
    (hj : j < w * h) :
    (∃ m : ℤ, ditherFloydSteinberg f w h levels j =
        m * (255 / ((levels : ℚ) - 1))) ∧
      (∃ m : ℤ, ditherAtkinson f w h levels j =
        m * (255 / ((levels : ℚ) - 1))) ∧
      (∃ m : ℤ, ditherStucki f w h levels j =
        m * (255 / ((levels : ℚ) - 1))) := by
  refine ⟨?_, ?_, ?_⟩
  · exact foldl_cells_multiple (w * h) (255 / ((levels : ℚ) - 1))
      (fsCell w h (255 / ((levels : ℚ) - 1)))
      (fun g i hi j2 hj2 => fsCell_apply_le w h _ g i hi j2 hj2) f j hj
  · exact foldl_cells_multiple (w * h) (255 / ((levels : ℚ) - 1))
      (atkCell w h (255 / ((levels : ℚ) - 1)))
      (fun g i hi j2 hj2 => atkCell_apply_le w h _ g i hi j2 hj2) f j hj
  · exact foldl_cells_multiple (w * h) (255 / ((levels : ℚ) - 1))
      (stuckiCell w h (255 / ((levels : ℚ) - 1)))
      (fun g i hi j2 hj2 => stuckiCell_apply_le w h _ g i hi j2 hj2) f j hj

/-- Witness for C10 on a concrete 2×2 field with 3 levels. -/
theorem dither_outputs_quantized_witness :
    (0 < 2 * 2) ∧
      ((∃ m : ℤ, ditherFloydSteinberg (fun _ => 10) 2 2 3 0 =
          m * (255 / (((3 : ℕ) : ℚ) - 1))) ∧
        (∃ m : ℤ, ditherAtkinson (fun _ => 10) 2 2 3 0 =
          m * (255 / (((3 : ℕ) : ℚ) - 1))) ∧
        (∃ m : ℤ, ditherStucki (fun _ => 10) 2 2 3 0 =
          m * (255 / (((3 : ℕ) : ℚ) - 1)))) :=
  ⟨by norm_num, dither_outputs_quantized 2 2 3 (fun _ => 10) 0 (by norm_num)⟩
